import Mathlib

/-!
Verification of `update-agents.py`: a script that scans a directory of
markdown agent-definition files, parses a `---`-delimited frontmatter header
(`name:` and `description:` fields) and the document body, and merges an entry
per well-formed document into the `agents` mapping of a JSON settings file.

The embedding models text as `List Char`, JSON values as an inductive with
objects as association lists (Python dicts: first-occurrence lookup,
in-place replacement on insert, append for new keys), and the script's
control flow — including the `TypeError` that `settings['agents'][id] = ...`
raises when the pre-existing `agents` value is not a dict — explicitly.
-/

namespace UpdateAgents

/-- JSON values as loaded by `json.load` (objects as association lists). -/
inductive JVal where
  | jnull : JVal
  | jbool : Bool → JVal
  | jnum : Int → JVal
  | jstr : List Char → JVal
  | jarr : List JVal → JVal
  | jobj : List (List Char × JVal) → JVal

/-- A JSON object: association list from key to value. -/
abbrev JObj := List (List Char × JVal)

/-- The full settings store: the top-level JSON object of the settings file. -/
abbrev TopStore := JObj

/-- Python whitespace characters matched by `\s` and stripped by `str.strip()`
(ASCII range). -/
def isPyWs (c : Char) : Bool :=
  c == ' ' || c == '\t' || c == '\n' || c == '\r' || c == '\x0b' || c == '\x0c'

/-- A character other than newline: what `.` matches without `re.DOTALL`. -/
def notNl (c : Char) : Bool := !(c == '\n')

/-- Python `str.strip()`: drop leading and trailing whitespace. -/
def stripPy (s : List Char) : List Char :=
  ((s.dropWhile isPyWs).reverse.dropWhile isPyWs).reverse

/-- Index of the first occurrence of `pat` as a contiguous substring of `s`
(the position a regex scan finds first). -/
def findSub (pat : List Char) : List Char → Option Nat
  | [] => if pat = [] then some 0 else none
  | c :: rest =>
    if pat.isPrefixOf (c :: rest) then some 0
    else (findSub pat rest).map (· + 1)

/-- The opening delimiter demanded by `re.match(r'^---\n...')`. -/
def openDelim : List Char := "---\n".toList

/-- The closing delimiter demanded by the frontmatter regex: `\n---\n`. -/
def closeDelim : List Char := "\n---\n".toList

/-- `re.match(r'^---\n(.*?)\n---\n(.*)', content, re.DOTALL)`: the content must
begin with `---\n`; the non-greedy group 1 runs to the *first* occurrence of
`\n---\n` after it, and group 2 is everything after that occurrence. -/
def parseDocument (content : List Char) : Option (List Char × List Char) :=
  if openDelim.isPrefixOf content then
    let t := content.drop 4
    match findSub closeDelim t with
    | some i => some (t.take i, t.drop (i + 5))
    | none => none
  else none

/-- Attempt of `\s*(.+)$` (greedy, `re.MULTILINE`, no `DOTALL`) at the position
just after `field:`. The greedy `\s*` may cross line breaks; backtracking makes
the match succeed exactly when some non-newline character follows a whitespace
prefix, and the group is the rest of the line from the last feasible
backtracking point. The Python code applies `.strip()` to the group; the
stripped value is returned here. -/
def matchValue (rest : List Char) : Option (List Char) :=
  let w := rest.takeWhile isPyWs
  if w.length < rest.length then
    some (stripPy ((rest.drop w.length).takeWhile notNl))
  else if rest.any notNl then
    some []
  else
    none

/-- Attempt of the whole pattern `^field:\s*(.+)$` at one position (a line
start): the literal `field:` must be a prefix, then `matchValue` decides. -/
def fieldAt (field text : List Char) : Option (List Char) :=
  if (field ++ [':']).isPrefixOf text then
    matchValue (text.drop (field.length + 1))
  else none

/-- Scan a text, attempting `f` at the position just after every newline
(the positions `^` matches under `re.MULTILINE`, other than position 0),
returning the first success. -/
def scanAfterNl (f : List Char → Option α) : List Char → Option α
  | [] => none
  | c :: rest =>
    if c = '\n' then
      match f rest with
      | some v => some v
      | none => scanAfterNl f rest
    else scanAfterNl f rest

/-- `re.search` with a `^`-anchored multiline pattern: try position 0, then
the position after each newline, leftmost first. -/
def searchML (f : List Char → Option α) (text : List Char) : Option α :=
  match f text with
  | some v => some v
  | none => scanAfterNl f text

/-- `re.search(r'^field:\s*(.+)$', text, re.MULTILINE)` followed by
`.group(1).strip()`, as the code does for `name` and `description`. -/
def extractField (field text : List Char) : Option (List Char) :=
  searchML (fieldAt field) text

/-- Modelled from the spec's words for comparison (refinement target), not
from the code: return the trimmed text after the colon on the first line that
begins with `field:`, and nothing when no line begins with `field:`. -/
def specAt (field text : List Char) : Option (List Char) :=
  if (field ++ [':']).isPrefixOf text then
    some (stripPy ((text.drop (field.length + 1)).takeWhile notNl))
  else none

/-- The spec-side `extractField`: first line beginning with `field:`, value
taken from that same line. -/
def extractFieldSpec (field text : List Char) : Option (List Char) :=
  searchML (specAt field) text

/-- At one position: does the line begin with `field:` and carry a
non-whitespace character after the colon on the same line? -/
def lineValOk (field text : List Char) : Option Bool :=
  if (field ++ [':']).isPrefixOf text then
    some (((text.drop (field.length + 1)).takeWhile notNl).any (fun c => !(isPyWs c)))
  else none

/-- The first line of `text` beginning with `field:` has a non-whitespace
character after the colon on that same line (vacuously true when no line
begins with `field:`). -/
def firstLineOk (field text : List Char) : Bool :=
  (searchML (lineValOk field) text).getD true

/-- `filename.replace('.md', '')`: Python replaces every non-overlapping
occurrence of `.md`, left to right — not only a trailing extension. -/
def stripMd : List Char → List Char
  | '.' :: 'm' :: 'd' :: rest => stripMd rest
  | c :: rest => c :: stripMd rest
  | [] => []

/-- The `.md` extension, for `filename.endswith('.md')`. -/
def mdExt : List Char := ".md".toList

/-- Does `.md` occur anywhere in the string? -/
def hasMd : List Char → Bool
  | [] => false
  | c :: rest => mdExt.isPrefixOf (c :: rest) || hasMd rest

/-- `filename.endswith('.md')`. -/
def endsWithMd (fn : List Char) : Bool := mdExt.isSuffixOf fn

/-- The field names the script consumes. -/
def nameField : List Char := "name".toList

def descField : List Char := "description".toList

/-- The entry derived from one well-formed document. -/
structure AgentEntry where
  name : List Char
  description : List Char
  systemPrompt : List Char
  deriving DecidableEq

/-- Full per-document parse, as the code performs it: frontmatter regex, then
the two field regexes; `None` means the document is silently skipped. -/
def parseEntry (content : List Char) : Option AgentEntry :=
  match parseDocument content with
  | none => none
  | some (fm, b) =>
    match extractField nameField fm, extractField descField fm with
    | some n, some d => some ⟨n, d, stripPy b⟩
    | _, _ => none

def nameKey : List Char := "name".toList

def descKey : List Char := "description".toList

def promptKey : List Char := "systemPrompt".toList

/-- The JSON object written for one agent:
`{"name": ..., "description": ..., "systemPrompt": ...}`. -/
def entryVal (e : AgentEntry) : JVal :=
  .jobj [(nameKey, .jstr e.name), (descKey, .jstr e.description),
         (promptKey, .jstr e.systemPrompt)]

/-- First-occurrence lookup in a JSON object (Python dict indexing). -/
def lookupKey (k : List Char) : JObj → Option JVal
  | [] => none
  | (k2, v) :: rest => if k2 = k then some v else lookupKey k rest

/-- Python dict assignment `d[k] = v`: replace the value in place when the key
is present, append the pair otherwise. -/
def insertKey (k : List Char) (v : JVal) : JObj → JObj
  | [] => [(k, v)]
  | (k2, v2) :: rest =>
    if k2 = k then (k, v) :: rest else (k2, v2) :: insertKey k v rest

def agentsKey : List Char := "agents".toList

/-- The `agents` mapping of a store, when it is absent (treated as empty) or
a JSON object; `none` when it is present with a non-object value. -/
def agentsMap (s : TopStore) : Option JObj :=
  match lookupKey agentsKey s with
  | none => some []
  | some (.jobj o) => some o
  | some _ => none

/-- The `agents` mapping read leniently: empty when absent or non-object. -/
def agentsAlist (s : TopStore) : JObj := (agentsMap s).getD []

/-- `settings.get('agents', {})`. -/
def getAgents (s : TopStore) : JVal := (lookupKey agentsKey s).getD (.jobj [])

/-- Python `len` on a JSON value: defined for dicts, lists and strings,
`TypeError` (`none`) otherwise. -/
def jlen : JVal → Option Nat
  | .jobj o => some o.length
  | .jarr xs => some xs.length
  | .jstr s => some s.length
  | _ => none

/-- Lines 37–44 of the script: when `'agents' not in settings`, first install
an empty dict under `agents`; then perform `settings['agents'][agent_id] =
entry`. `none` is the `TypeError` raised when the pre-existing `agents` value
is not a dict. -/
def applyWrite (s : TopStore) (id : List Char) (v : JVal) : Option TopStore :=
  match lookupKey agentsKey s with
  | none =>
    some (insertKey agentsKey (.jobj (insertKey id v []))
      (insertKey agentsKey (.jobj []) s))
  | some (.jobj o) => some (insertKey agentsKey (.jobj (insertKey id v o)) s)
  | some _ => none

/-- Observable actions of the script, in order. -/
inductive Event where
  | readDoc : List Char → Event
  | printLine : List Char → Event
  | writeFile : TopStore → Event
  | summary : Nat → Event

/-- The `Updated agent: <identifier>` progress line. -/
def updatedMsg (id : List Char) : List Char := "Updated agent: ".toList ++ id

/-- The per-document loop (lines 14–45): for each directory entry ending in
`.md`, read it, parse, and merge on success. The first component is the final
in-memory store, `none` when a `TypeError` aborted the loop; the second is the
trace of reads and progress prints. -/
def processDir (s : TopStore) : List (List Char × List Char) → Option TopStore × List Event
  | [] => (some s, [])
  | (fn, c) :: rest =>
    if endsWithMd fn then
      match parseEntry c with
      | some e =>
        match applyWrite s (stripMd fn) (entryVal e) with
        | some s1 =>
          ((processDir s1 rest).1,
            Event.readDoc fn :: Event.printLine (updatedMsg (stripMd fn)) ::
              (processDir s1 rest).2)
        | none => (none, [Event.readDoc fn])
      | none =>
        ((processDir s rest).1, Event.readDoc fn :: (processDir s rest).2)
    else processDir s rest

/-- The result of the one well-formed parse of a directory entry, when the
entry is a `.md` file that parses: the key written and the value stored. -/
def mergeOf (d : List Char × List Char) : Option (List Char × JVal) :=
  if endsWithMd d.1 then
    match parseEntry d.2 with
    | some e => some (stripMd d.1, entryVal e)
    | none => none
  else none

/-- All the writes a directory induces, in processing order. -/
def writesOf (dir : List (List Char × List Char)) : List (List Char × JVal) :=
  dir.filterMap mergeOf

/-- Terminal states of one invocation. -/
inductive ScriptResult where
  | loadError : ScriptResult
  | typeError : ScriptResult
  | ok : TopStore → ScriptResult

/-- The whole script. `load` is the result of `json.load` on the settings file
(`none`: missing file or invalid JSON — the uncaught exception of lines 10–11,
raised before any document is touched). On success the store is written back
(line 48–49) and the summary count `len(settings.get('agents', {}))` printed
(line 51); a `TypeError` in the loop or in that final `len` aborts. -/
def script (load : Option TopStore) (dir : List (List Char × List Char)) :
    ScriptResult × List Event :=
  match load with
  | none => (.loadError, [])
  | some s =>
    match processDir s dir with
    | (none, evs) => (.typeError, evs)
    | (some w, evs) =>
      match jlen (getAgents w) with
      | none => (.typeError, evs ++ [Event.writeFile w])
      | some n => (.ok w, evs ++ [Event.writeFile w, Event.summary n])

/-- The store updates of the loop, viewed as a fold of `applyWrite` over the
write list, threading the possibility of a `TypeError`. -/
def applyWrites (acc : Option TopStore) (ws : List (List Char × JVal)) : Option TopStore :=
  ws.foldl (fun a p => a.bind fun st => applyWrite st p.1 p.2) acc

/-- The same writes applied inside the `agents` object alone. -/
def applyObj (o : JObj) (ws : List (List Char × JVal)) : JObj :=
  ws.foldl (fun acc p => insertKey p.1 p.2 acc) o

/-- The progress lines among a trace. -/
def printsOf (evs : List Event) : List (List Char) :=
  evs.filterMap fun e => match e with | .printLine s => some s | _ => none

/-- The summary counts among a trace. -/
def summariesOf (evs : List Event) : List Nat :=
  evs.filterMap fun e => match e with | .summary n => some n | _ => none

/-! ### Association-list laws -/

theorem lookupKey_insertKey (k k2 : List Char) (v : JVal) (l : JObj) :
    lookupKey k (insertKey k2 v l) = if k2 = k then some v else lookupKey k l := by
  induction l with
  | nil => simp [insertKey, lookupKey]
  | cons p rest ih =>
    obtain ⟨k3, v3⟩ := p
    by_cases h3 : k3 = k2
    · subst h3
      by_cases hk : k3 = k <;> simp [insertKey, lookupKey, hk]
    · by_cases hk : k3 = k
      · subst hk
        have h2 : k2 ≠ k3 := fun h => h3 h.symm
        simp [insertKey, lookupKey, h3, h2]
      · simp [insertKey, lookupKey, h3, hk, ih]

theorem lookupKey_append (k : List Char) (a b : JObj) :
    lookupKey k (a ++ b) =
      match lookupKey k a with
      | some v => some v
      | none => lookupKey k b := by
  induction a with
  | nil => simp [lookupKey]
  | cons p rest ih =>
    obtain ⟨k2, v2⟩ := p
    by_cases hk : k2 = k <;> simp [lookupKey, hk, ih]

/-! ### Laws of a single merge (`applyWrite`) -/

theorem applyWrite_agents (s : TopStore) (id : List Char) (v : JVal) (s1 : TopStore)
    (h : applyWrite s id v = some s1) :
    agentsMap s1 = some (insertKey id v (agentsAlist s)) := by
  unfold applyWrite at h
  rcases hl : lookupKey agentsKey s with _ | w
  · rw [hl] at h
    cases h
    simp [agentsMap, agentsAlist, lookupKey_insertKey, hl]
  · rcases w with _ | b | n | t | xs | o <;> rw [hl] at h
    · cases h
    · cases h
    · cases h
    · cases h
    · cases h
    · cases h
      simp [agentsMap, agentsAlist, lookupKey_insertKey, hl]

theorem applyWrite_frame (s : TopStore) (id : List Char) (v : JVal) (s1 : TopStore)
    (k : List Char) (h : applyWrite s id v = some s1) (hk : k ≠ agentsKey) :
    lookupKey k s1 = lookupKey k s := by
  have hak : agentsKey ≠ k := fun hh => hk hh.symm
  unfold applyWrite at h
  rcases hl : lookupKey agentsKey s with _ | w
  · rw [hl] at h
    cases h
    simp [lookupKey_insertKey, hak]
  · rcases w with _ | b | n | t | xs | o <;> rw [hl] at h
    · cases h
    · cases h
    · cases h
    · cases h
    · cases h
    · cases h
      simp [lookupKey_insertKey, hak]

theorem applyWrite_of_agentsMap (s : TopStore) (id : List Char) (v : JVal) (o : JObj)
    (h : agentsMap s = some o) :
    ∃ s1, applyWrite s id v = some s1 := by
  unfold agentsMap at h
  unfold applyWrite
  rcases hl : lookupKey agentsKey s with _ | w
  · exact ⟨_, rfl⟩
  · rcases w with _ | b | n | t | xs | o2
    · simp [hl] at h
    · simp [hl] at h
    · simp [hl] at h
    · simp [hl] at h
    · simp [hl] at h
    · exact ⟨_, rfl⟩

theorem applyWrite_none_iff (s : TopStore) (id : List Char) (v : JVal) :
    applyWrite s id v = none ↔ agentsMap s = none := by
  unfold applyWrite agentsMap
  rcases hl : lookupKey agentsKey s with _ | w
  · simp [hl]
  · rcases w with _ | b | n | t | xs | o <;> simp [hl]

/-! ### The loop as a fold over the induced writes -/

theorem applyWrites_nil (acc : Option TopStore) : applyWrites acc [] = acc := rfl

theorem applyWrites_cons (acc : Option TopStore) (p : List Char × JVal)
    (ws : List (List Char × JVal)) :
    applyWrites acc (p :: ws) =
      applyWrites (acc.bind fun st => applyWrite st p.1 p.2) ws := by
  simp [applyWrites]

theorem applyWrites_none (ws : List (List Char × JVal)) : applyWrites none ws = none := by
  induction ws with
  | nil => rfl
  | cons p rest ih => simpa [applyWrites] using ih

theorem processDir_store (dir : List (List Char × List Char)) :
    ∀ s : TopStore, (processDir s dir).1 = applyWrites (some s) (writesOf dir) := by
  induction dir with
  | nil => intro s; rfl
  | cons d rest ih =>
    intro s
    obtain ⟨fn, c⟩ := d
    by_cases hmd : endsWithMd fn
    · rcases hpe : parseEntry c with _ | e
      · simpa [processDir, writesOf, mergeOf, hmd, hpe, List.filterMap_cons] using ih s
      · rcases haw : applyWrite s (stripMd fn) (entryVal e) with _ | s1
        · simp [processDir, writesOf, mergeOf, hmd, hpe, haw, List.filterMap_cons,
            applyWrites_cons, applyWrites_none]
        · simpa [processDir, writesOf, mergeOf, hmd, hpe, haw, List.filterMap_cons,
            applyWrites_cons] using ih s1
    · simpa [processDir, writesOf, mergeOf, hmd, List.filterMap_cons] using ih s

theorem applyWrites_frame (ws : List (List Char × JVal)) :
    ∀ s w : TopStore, applyWrites (some s) ws = some w →
      ∀ k, k ≠ agentsKey → lookupKey k w = lookupKey k s := by
  induction ws with
  | nil =>
    intro s w h k hk
    cases h; rfl
  | cons p rest ih =>
    intro s w h k hk
    rcases haw : applyWrite s p.1 p.2 with _ | s1
    · rw [show applyWrites (some s) (p :: rest) = applyWrites none rest by
        simp [applyWrites, haw], applyWrites_none] at h
      cases h
    · rw [show applyWrites (some s) (p :: rest) = applyWrites (some s1) rest by
        simp [applyWrites, haw]] at h
      rw [ih s1 w h k hk, applyWrite_frame s p.1 p.2 s1 k haw hk]

theorem applyWrites_ok (ws : List (List Char × JVal)) :
    ∀ (s : TopStore) (o : JObj), agentsMap s = some o →
      ∃ w, applyWrites (some s) ws = some w ∧ agentsMap w = some (applyObj o ws) := by
  induction ws with
  | nil =>
    intro s o h
    exact ⟨s, rfl, h⟩
  | cons p rest ih =>
    intro s o h
    obtain ⟨s1, hs1⟩ := applyWrite_of_agentsMap s p.1 p.2 o h
    have hm1 : agentsMap s1 = some (insertKey p.1 p.2 o) := by
      have := applyWrite_agents s p.1 p.2 s1 hs1
      rwa [show agentsAlist s = o by simp [agentsAlist, h]] at this
    obtain ⟨w, hw, hwm⟩ := ih s1 (insertKey p.1 p.2 o) hm1
    refine ⟨w, ?_, ?_⟩
    · rw [show applyWrites (some s) (p :: rest) = applyWrites (some s1) rest by
        simp [applyWrites, hs1]]
      exact hw
    · simpa [applyObj] using hwm

theorem applyWrites_cons_agents (p : List Char × JVal) (ws : List (List Char × JVal))
    (s w : TopStore) (h : applyWrites (some s) (p :: ws) = some w) :
    ∃ o, agentsMap s = some o := by
  rcases ho : agentsMap s with _ | o
  · have haw : applyWrite s p.1 p.2 = none := (applyWrite_none_iff s p.1 p.2).mpr ho
    rw [show applyWrites (some s) (p :: ws) = applyWrites none ws by
      simp [applyWrites, haw], applyWrites_none] at h
    cases h
  · exact ⟨o, rfl⟩

theorem lookupKey_applyObj (ws : List (List Char × JVal)) :
    ∀ (o : JObj) (k : List Char),
      lookupKey k (applyObj o ws) =
        match lookupKey k ws.reverse with
        | some v => some v
        | none => lookupKey k o := by
  induction ws with
  | nil => intro o k; simp [applyObj, lookupKey]
  | cons p rest ih =>
    intro o k
    have : applyObj o (p :: rest) = applyObj (insertKey p.1 p.2 o) rest := by
      simp [applyObj]
    rw [this, ih]
    rw [show (p :: rest).reverse = rest.reverse ++ [p] from by simp]
    rw [lookupKey_append]
    rcases h : lookupKey k rest.reverse with _ | v
    · by_cases hp : p.1 = k <;> simp [lookupKey, hp, lookupKey_insertKey]
    · simp

theorem jlen_getAgents (w : TopStore) (o : JObj) (h : agentsMap w = some o) :
    jlen (getAgents w) = some o.length := by
  unfold agentsMap at h
  rcases hl : lookupKey agentsKey w with _ | v
  · simp [hl] at h
    simp [getAgents, hl, jlen, ← h]
  · rcases v with _ | _ | _ | _ | _ | o2 <;> simp [hl] at h <;> simp [getAgents, hl, jlen, h]

theorem script_ok_inv (s : TopStore) (dir : List (List Char × List Char))
    (w : TopStore) (evs : List Event) (h : script (some s) dir = (.ok w, evs)) :
    ∃ evs0 n, processDir s dir = (some w, evs0) ∧ jlen (getAgents w) = some n ∧
      evs = evs0 ++ [Event.writeFile w, Event.summary n] := by
  rcases hp : processDir s dir with ⟨os, evs0⟩
  rcases os with _ | w0
  · simp [script, hp] at h
  · rcases hj : jlen (getAgents w0) with _ | n
    · simp [script, hp, hj] at h
    · simp only [script, hp] at h
      rw [hj] at h
      simp at h
      obtain ⟨h1, h2⟩ := h
      subst h1
      exact ⟨evs0, n, rfl, hj, h2.symm⟩

theorem processDir_events (dir : List (List Char × List Char)) :
    ∀ (s w : TopStore) (evs : List Event), processDir s dir = (some w, evs) →
      printsOf evs = (writesOf dir).map (fun p => updatedMsg p.1) ∧
      summariesOf evs = [] := by
  induction dir with
  | nil =>
    intro s w evs h
    injection h with h1 h2
    subst h2
    simp [printsOf, summariesOf, writesOf]
  | cons d rest ih =>
    intro s w evs h
    obtain ⟨fn, c⟩ := d
    by_cases hmd : endsWithMd fn
    · rcases hpe : parseEntry c with _ | e
      · rcases hr : processDir s rest with ⟨os, evs1⟩
        simp only [processDir, hmd, hpe, hr, if_true] at h
        injection h with h1 h2
        subst h1 h2
        obtain ⟨p1, p2⟩ := ih s w evs1 hr
        refine ⟨?_, ?_⟩
        · simpa [printsOf, writesOf, mergeOf, hmd, hpe, List.filterMap_cons] using p1
        · simpa [summariesOf] using p2
      · rcases haw : applyWrite s (stripMd fn) (entryVal e) with _ | s1
        · simp only [processDir, hmd, hpe, haw, if_true] at h
          injection h with h1 h2
          cases h1
        · rcases hr : processDir s1 rest with ⟨os, evs1⟩
          simp only [processDir, hmd, hpe, haw, hr, if_true] at h
          injection h with h1 h2
          subst h1 h2
          obtain ⟨p1, p2⟩ := ih s1 w evs1 hr
          refine ⟨?_, ?_⟩
          · simpa [printsOf, writesOf, mergeOf, hmd, hpe, List.filterMap_cons] using p1
          · simpa [summariesOf] using p2
    · rw [show processDir s ((fn, c) :: rest) = processDir s rest by
        simp [processDir, hmd]] at h
      obtain ⟨p1, p2⟩ := ih s w evs h
      refine ⟨?_, p2⟩
      simpa [writesOf, mergeOf, hmd, List.filterMap_cons] using p1

/-! ### Shared concrete fixtures for witnesses -/

/-- A well-formed sample document. -/
def sampleDoc : List Char := "---\nname: Foo\ndescription: Bar\n---\nHello world".toList

/-- The entry `sampleDoc` parses to. -/
def sampleEntry : AgentEntry := ⟨"Foo".toList, "Bar".toList, "Hello world".toList⟩

def otherKey : List Char := "other".toList

/-- A settings store with one unrelated top-level key. -/
def s0w : TopStore := [(otherKey, .jstr ("keep".toList))]

/-- A directory with one well-formed document. -/
def docDir : List (List Char × List Char) := [(("doc.md").toList, sampleDoc)]

/-- The store the sample run writes. -/
def w1c : TopStore :=
  [(otherKey, .jstr ("keep".toList)),
   (agentsKey, .jobj [(("doc").toList, entryVal sampleEntry)])]

/-- The trace of the sample run. -/
def evs1c : List Event :=
  [.readDoc (("doc.md").toList), .printLine (updatedMsg (("doc").toList)),
   .writeFile w1c, .summary 1]

/-! ### The claims -/

/-- C9: if the settings file is missing or not valid JSON (`json.load` fails,
modelled as `load = none`), the run aborts immediately: the result is a load
error and the event trace is empty — no document is read, nothing is printed,
and the settings file is not written. -/
theorem settingsLoadError_aborts (dir : List (List Char × List Char)) :
    script none dir = (.loadError, []) := rfl

/-- C1: every pre-existing top-level key other than `agents` has the same
value after a completed run as before it. -/
theorem nonAgents_keys_preserved (s : TopStore) (dir : List (List Char × List Char))
    (w : TopStore) (evs : List Event) (k : List Char)
    (h : script (some s) dir = (.ok w, evs)) (hk : k ≠ agentsKey) :
    lookupKey k w = lookupKey k s := by
  obtain ⟨evs0, n, hp, _, _⟩ := script_ok_inv s dir w evs h
  have hw : applyWrites (some s) (writesOf dir) = some w := by
    have hst := processDir_store dir s
    rw [hp] at hst
    exact hst.symm
  exact applyWrites_frame (writesOf dir) s w hw k hk

/-- Witness for C1 on a concrete run: the unrelated key keeps its value. -/
theorem nonAgents_keys_preserved_witness :
    lookupKey otherKey w1c = lookupKey otherKey s0w :=
  nonAgents_keys_preserved s0w docDir w1c evs1c otherKey (by rfl) (by decide)

/-- C5: a document with no closing `---` delimiter, or whose header has no
`name:` match, contributes nothing: the store evolves exactly as if the
document were absent, so no entry is added and no existing entry (under its
identifier or any other key) changes on account of that document. -/
theorem malformed_doc_skipped (fn c : List Char) (s : TopStore)
    (rest : List (List Char × List Char))
    (h : parseDocument c = none ∨
      ∃ fm b, parseDocument c = some (fm, b) ∧ extractField nameField fm = none) :
    (processDir s ((fn, c) :: rest)).1 = (processDir s rest).1 := by
  have hpe : parseEntry c = none := by
    rcases h with h | ⟨fm, b, hfb, hname⟩
    · simp [parseEntry, h]
    · simp [parseEntry, hfb, hname]
  by_cases hmd : endsWithMd fn
  · simp [processDir, hmd, hpe]
  · simp [processDir, hmd]

/-- Witness for C5 at a concrete malformed document (no closing `---`). -/
theorem malformed_doc_skipped_witness :
    (processDir [] [(("bad.md").toList, ("---\nno closing").toList)]).1 =
      (processDir ([] : TopStore) []).1 :=
  malformed_doc_skipped (("bad.md").toList) (("---\nno closing").toList) [] []
    (Or.inl rfl)

/-- C8: on a completed run whose final `agents` value is the mapping `o`
(or is absent, `o = []`), the single summary line reports exactly `o.length`
— the number of entries in `agents` after the run, stale ones included — and
the progress lines are exactly one `Updated agent: <identifier>` line per
successfully merged document, in order. -/
theorem count_and_progress_lines (s : TopStore) (dir : List (List Char × List Char))
    (w : TopStore) (evs : List Event) (o : JObj)
    (h : script (some s) dir = (.ok w, evs)) (ho : agentsMap w = some o) :
    summariesOf evs = [o.length] ∧
    printsOf evs = (writesOf dir).map (fun p => updatedMsg p.1) := by
  obtain ⟨evs0, n, hp, hj, hev⟩ := script_ok_inv s dir w evs h
  obtain ⟨hprints, hsums⟩ := processDir_events dir s w evs0 hp
  have hn : n = o.length := by
    rw [jlen_getAgents w o ho] at hj
    exact (Option.some.inj hj).symm
  subst hev
  subst hn
  constructor
  · simp [summariesOf, List.filterMap_append] at hsums ⊢
    simpa [summariesOf] using hsums
  · simp only [printsOf, List.filterMap_append] at hprints ⊢
    simpa [printsOf] using hprints

/-- Witness for C8 on the concrete sample run: count 1, one progress line. -/
theorem count_and_progress_lines_witness :
    summariesOf evs1c = [([(("doc").toList, entryVal sampleEntry)] : JObj).length] ∧
    printsOf evs1c = (writesOf docDir).map (fun p => updatedMsg p.1) :=
  count_and_progress_lines s0w docDir w1c evs1c
    [(("doc").toList, entryVal sampleEntry)] (by rfl) (by rfl)

/-- Processing a single well-formed `.md` document leaves exactly the parsed
entry under its identifier in the `agents` mapping. -/
theorem processDir_singleton_ok (fn c : List Char) (e : AgentEntry) (s w : TopStore)
    (evs : List Event) (hmd : endsWithMd fn = true) (hpe : parseEntry c = some e)
    (h : processDir s [(fn, c)] = (some w, evs)) :
    lookupKey (stripMd fn) (agentsAlist w) = some (entryVal e) := by
  rcases haw : applyWrite s (stripMd fn) (entryVal e) with _ | s1
  · simp only [processDir, hmd, hpe, haw, if_true] at h
    injection h with h1 h2
    cases h1
  · simp only [processDir, hmd, hpe, haw, if_true] at h
    injection h with h1 h2
    injection h1 with h1
    subst h1
    have ha := applyWrite_agents s (stripMd fn) (entryVal e) s1 haw
    simp [agentsAlist, ha, lookupKey_insertKey]

/-- C2: a run over a document whose content is `---`, `name: Foo`,
`description: Bar`, `---`, body `Hello world` stores, under that document's
identifier, exactly the entry
`{"name": "Foo", "description": "Bar", "systemPrompt": "Hello world"}`. -/
theorem roundtrip_wellformed (fn : List Char) (s0 w : TopStore) (evs : List Event)
    (hmd : endsWithMd fn = true)
    (h : script (some s0) [(fn, sampleDoc)] = (.ok w, evs)) :
    lookupKey (stripMd fn) (agentsAlist w) = some (entryVal sampleEntry) := by
  obtain ⟨evs0, n, hp, _, _⟩ := script_ok_inv s0 [(fn, sampleDoc)] w evs h
  exact processDir_singleton_ok fn sampleDoc sampleEntry s0 w evs0 hmd (by rfl) hp

/-- Witness for C2: the concrete sample run stores exactly the sample entry. -/
theorem roundtrip_wellformed_witness :
    lookupKey (stripMd (("doc.md").toList)) (agentsAlist w1c) =
      some (entryVal sampleEntry) :=
  roundtrip_wellformed (("doc.md").toList) s0w w1c evs1c (by decide) (by rfl)

/-- A store whose `agents` mapping already holds an unrelated value under the
identifier `doc`. -/
def s0c7 : TopStore := [(agentsKey, .jobj [(("doc").toList, .jstr ("old").toList)])]

/-- The store the overwrite run produces. -/
def w7c : TopStore := [(agentsKey, .jobj [(("doc").toList, entryVal sampleEntry)])]

/-- The trace of the overwrite run. -/
def evs7c : List Event :=
  [.readDoc (("doc.md").toList), .printLine (updatedMsg (("doc").toList)),
   .writeFile w7c, .summary 1]

/-- C7: re-processing a well-formed document for an identifier with a
pre-existing entry replaces the entry wholesale: afterwards it is exactly the
object built from the newly parsed name, description and systemPrompt, with
nothing of the old entry retained. -/
theorem overwrite_wholesale (fn c : List Char) (e : AgentEntry) (s0 w : TopStore)
    (evs : List Event) (old : JVal)
    (hmd : endsWithMd fn = true) (hpe : parseEntry c = some e)
    (hold : lookupKey (stripMd fn) (agentsAlist s0) = some old)
    (h : script (some s0) [(fn, c)] = (.ok w, evs)) :
    lookupKey (stripMd fn) (agentsAlist w) = some (entryVal e) := by
  obtain ⟨evs0, n, hp, _, _⟩ := script_ok_inv s0 [(fn, c)] w evs h
  exact processDir_singleton_ok fn c e s0 w evs0 hmd hpe hp

/-- Witness for C7: the stale entry `"old"` under `doc` is fully replaced. -/
theorem overwrite_wholesale_witness :
    lookupKey (stripMd (("doc.md").toList)) (agentsAlist w7c) =
      some (entryVal sampleEntry) :=
  overwrite_wholesale (("doc.md").toList) sampleDoc sampleEntry s0c7 w7c evs7c
    (.jstr ("old").toList) (by decide) (by rfl) (by rfl) (by rfl)

/-! ### The identifier computation (C3) -/

theorem stripMd_cons_of_not (c : Char) (rest : List Char)
    (h : mdExt.isPrefixOf (c :: rest) = false) :
    stripMd (c :: rest) = c :: stripMd rest := by
  rw [stripMd.eq_def]
  split
  · rename_i tail heq
    injection heq with h1 h2
    subst h1
    subst h2
    simp [mdExt, List.isPrefixOf] at h
  · rename_i c2 rest2 hne heq
    injection heq with h1 h2
    subst h1
    subst h2
    rfl
  · rename_i heq
    cases heq

theorem isPrefixOf_md_append (c : Char) (rest : List Char) :
    mdExt.isPrefixOf (c :: (rest ++ mdExt)) = mdExt.isPrefixOf (c :: rest) := by
  rcases rest with _ | ⟨x, rest⟩
  · simp [mdExt, List.isPrefixOf]
  · rcases rest with _ | ⟨y, rest⟩
    · simp [mdExt, List.isPrefixOf]
    · simp [mdExt, List.isPrefixOf]

/-- C3 counterexample: the file `a.md.md` ends in `.md`, so it is processed;
but its entry is keyed `a`, not the filename-without-extension `a.md`,
because `filename.replace('.md', '')` removes every occurrence of `.md`. -/
theorem identifier_counterexample :
    endsWithMd (("a.md.md").toList) = true ∧
    stripMd (("a.md.md").toList) = ("a").toList ∧
    ("a").toList ≠ (("a.md").toList) := by decide

/-- C3 amended: the identifier is the filename with every occurrence of
`.md` removed; when `.md` occurs nowhere in the stem, this coincides with
the filename without its trailing extension. -/
theorem identifier_of_clean_stem (stem : List Char) (h : hasMd stem = false) :
    stripMd (stem ++ mdExt) = stem := by
  induction stem with
  | nil => rfl
  | cons c rest ih =>
    rw [hasMd] at h
    rw [Bool.or_eq_false_iff] at h
    have hpre2 : mdExt.isPrefixOf (c :: (rest ++ mdExt)) = false := by
      rw [isPrefixOf_md_append]
      exact h.1
    calc stripMd ((c :: rest) ++ mdExt) = stripMd (c :: (rest ++ mdExt)) := by simp
      _ = c :: stripMd (rest ++ mdExt) := stripMd_cons_of_not c _ hpre2
      _ = c :: rest := by rw [ih h.2]

/-- Witness for the amended C3 at a concrete clean stem. -/
theorem identifier_of_clean_stem_witness :
    hasMd (("agent1").toList) = false ∧
    stripMd ((("agent1").toList) ++ mdExt) = ("agent1").toList :=
  ⟨by decide, identifier_of_clean_stem (("agent1").toList) (by decide)⟩

/-! ### Field extraction: regex semantics vs the spec's description (C4) -/

theorem takeWhile_lt_of_any (p : Char → Bool) (l : List Char)
    (h : l.any (fun c => !(p c)) = true) :
    (l.takeWhile p).length < l.length := by
  induction l with
  | nil => simp at h
  | cons c r ih =>
    by_cases hc : p c = true
    · rw [List.any_cons] at h
      simp only [hc, Bool.not_true, Bool.false_or] at h
      simp only [List.takeWhile_cons, hc, if_true, List.length_cons]
      exact Nat.succ_lt_succ (ih h)
    · rw [Bool.not_eq_true] at hc
      simp [List.takeWhile_cons, hc]

theorem stripPy_cons_ws (c : Char) (l : List Char) (h : isPyWs c = true) :
    stripPy (c :: l) = stripPy l := by
  simp [stripPy, List.dropWhile_cons, h]

theorem matchValue_of_any (rest : List Char)
    (h : ((rest.takeWhile notNl).any (fun c => !(isPyWs c))) = true) :
    matchValue rest = some (stripPy (rest.takeWhile notNl)) := by
  induction rest with
  | nil => simp [List.takeWhile_nil] at h
  | cons c r ih =>
    by_cases hws : isPyWs c = true
    · by_cases hnl : notNl c = true
      · simp only [List.takeWhile_cons, hnl, if_true, List.any_cons] at h
        simp only [hws, Bool.not_true, Bool.false_or] at h
        have ihr := ih h
        have hrany : r.any (fun c => !(isPyWs c)) = true := by
          rw [List.any_eq_true] at h ⊢
          obtain ⟨x, hx, hfx⟩ := h
          exact ⟨x, ( List.takeWhile_prefix notNl).subset hx, hfx⟩
        have hlt := takeWhile_lt_of_any isPyWs r hrany
        have hmvr : matchValue r =
            some (stripPy ((r.drop ((r.takeWhile isPyWs).length)).takeWhile notNl)) := by
          simp only [matchValue]
          rw [if_pos hlt]
        rw [ihr] at hmvr
        have hveq := Option.some.inj hmvr
        have hwcons : (c :: r).takeWhile isPyWs = c :: r.takeWhile isPyWs := by
          simp [List.takeWhile_cons, hws]
        simp only [matchValue, hwcons, List.length_cons]
        rw [if_pos (Nat.succ_lt_succ hlt)]
        rw [List.drop_succ_cons, ← hveq]
        have htw : (c :: r).takeWhile notNl = c :: r.takeWhile notNl := by
          simp [List.takeWhile_cons, hnl]
        rw [htw, stripPy_cons_ws c _ hws]
      · rw [Bool.not_eq_true] at hnl
        simp [List.takeWhile_cons, hnl] at h
    · rw [Bool.not_eq_true] at hws
      have hwcons : (c :: r).takeWhile isPyWs = [] := by
        simp [List.takeWhile_cons, hws]
      simp only [matchValue, hwcons, List.length_nil, List.length_cons]
      rw [if_pos (Nat.succ_pos _)]
      rw [List.drop_zero]

/-- At a position whose line begins with `field:` and has a non-whitespace
character after the colon on that line, the regex attempt and the spec's
same-line reading agree (and both succeed). -/
theorem at_agree (field t : List Char) (h : lineValOk field t = some true) :
    fieldAt field t = specAt field t ∧ ∃ v, specAt field t = some v := by
  unfold lineValOk at h
  by_cases hpre : (field ++ [':']).isPrefixOf t = true
  · simp only [hpre, if_true] at h
    have hb := Option.some.inj h
    unfold fieldAt specAt
    simp only [hpre, if_true]
    rw [matchValue_of_any _ hb]
    exact ⟨rfl, _, rfl⟩
  · rw [Bool.not_eq_true] at hpre
    simp [hpre] at h

/-- At a position whose line does not begin with `field:`, all three
per-position attempts fail. -/
theorem at_none (field t : List Char) (h : lineValOk field t = none) :
    fieldAt field t = none ∧ specAt field t = none := by
  unfold lineValOk at h
  by_cases hpre : (field ++ [':']).isPrefixOf t = true
  · simp [hpre] at h
  · rw [Bool.not_eq_true] at hpre
    exact ⟨by simp [fieldAt, hpre], by simp [specAt, hpre]⟩

theorem scanAgree (field : List Char) (t : List Char)
    (h : (scanAfterNl (lineValOk field) t).getD true = true) :
    scanAfterNl (fieldAt field) t = scanAfterNl (specAt field) t := by
  induction t with
  | nil => simp [scanAfterNl]
  | cons c r ih =>
    by_cases hc : c = '\n'
    · subst hc
      rcases hlv : lineValOk field r with _ | b
      · obtain ⟨f1, f2⟩ := at_none field r hlv
        simp only [scanAfterNl, if_pos rfl, hlv, f1, f2] at h ⊢
        exact ih h
      · cases b
        · exfalso
          revert h
          simp [scanAfterNl, hlv]
        · obtain ⟨heq, v, hv⟩ := at_agree field r hlv
          simp [scanAfterNl, heq, hv]
    · simp only [scanAfterNl, if_neg hc] at h ⊢
      exact ih h

/-- C4 amended: `extractField` agrees with the spec's description — trimmed
value after the colon on the first line beginning `fieldName:`, nothing when
no such line exists — whenever that first matching line carries a
non-whitespace character after the colon; when the text after the colon on
that line is only whitespace, the regex's `\s*` may cross the line break, so
the returned value can come from a later line instead. -/
theorem extractField_firstLine (field text : List Char)
    (h : firstLineOk field text = true) :
    extractField field text = extractFieldSpec field text := by
  unfold extractField extractFieldSpec searchML
  rcases hlv : lineValOk field text with _ | b
  · obtain ⟨f1, f2⟩ := at_none field text hlv
    rw [f1, f2]
    apply scanAgree
    unfold firstLineOk searchML at h
    rw [hlv] at h
    exact h
  · cases b
    · exfalso
      unfold firstLineOk searchML at h
      rw [hlv] at h
      simp at h
    · obtain ⟨heq, v, hv⟩ := at_agree field text hlv
      rw [heq, hv]

/-- Witness for the amended C4 at a concrete well-behaved header. -/
theorem extractField_firstLine_witness :
    firstLineOk nameField (("name: Foo\ndescription: Bar").toList) = true ∧
    extractField nameField (("name: Foo\ndescription: Bar").toList) =
      extractFieldSpec nameField (("name: Foo\ndescription: Bar").toList) :=
  ⟨by decide, extractField_firstLine nameField
    (("name: Foo\ndescription: Bar").toList) (by decide)⟩

/-- C4 counterexample: on the header `name:` newline `Foo`, the code's regex
crosses the line break (`\s*` matches `\n`) and returns `Foo` from the second
line, while the claim's same-line reading yields the empty value — so the
returned value does not come from the first `name:` line. -/
theorem extractField_counterexample :
    extractField nameField (("name:\nFoo").toList) = some (("Foo").toList) ∧
    extractFieldSpec nameField (("name:\nFoo").toList) = some [] ∧
    some (("Foo").toList) ≠ some ([] : List Char) :=
  ⟨rfl, rfl, by decide⟩

/-! ### Idempotence (C6) -/

theorem script_ok_intro (s : TopStore) (dir : List (List Char × List Char))
    (w : TopStore) (evs0 : List Event) (n : Nat)
    (hp : processDir s dir = (some w, evs0)) (hj : jlen (getAgents w) = some n) :
    script (some s) dir = (.ok w, evs0 ++ [Event.writeFile w, Event.summary n]) := by
  simp [script, hp, hj]

/-- C6: running the synchronizer a second time, on the store a completed run
wrote and the same directory, completes again and yields an `agents` mapping
with exactly the same key-value pairs as after the first run. -/
theorem idempotent_second_run (s : TopStore) (dir : List (List Char × List Char))
    (w : TopStore) (evs : List Event) (h : script (some s) dir = (.ok w, evs)) :
    ∃ w2 evs2, script (some w) dir = (.ok w2, evs2) ∧
      ∀ k, lookupKey k (agentsAlist w2) = lookupKey k (agentsAlist w) := by
  obtain ⟨evs0, n, hp, hj, hev⟩ := script_ok_inv s dir w evs h
  have hw : applyWrites (some s) (writesOf dir) = some w := by
    have hst := processDir_store dir s
    rw [hp] at hst
    exact hst.symm
  rcases hws : writesOf dir with _ | ⟨p, ws2⟩
  · rw [hws] at hw
    have hw2 : w = s := (Option.some.inj hw).symm
    subst hw2
    rcases hp2 : processDir w dir with ⟨os2, evs2⟩
    have hst2 := processDir_store dir w
    rw [hp2, hws] at hst2
    have hos2 : os2 = some w := by
      simp only [applyWrites_nil] at hst2
      exact hst2
    refine ⟨w, evs2 ++ [Event.writeFile w, Event.summary n], ?_, fun k => rfl⟩
    exact script_ok_intro w dir w evs2 n (by rw [hp2, hos2]) hj
  · obtain ⟨o, ho⟩ := applyWrites_cons_agents p ws2 s w (hws ▸ hw)
    obtain ⟨w1, hw1, hwm1⟩ := applyWrites_ok (writesOf dir) s o ho
    have hww : w1 = w := by
      rw [hw] at hw1
      exact (Option.some.inj hw1).symm
    rw [hww] at hwm1
    obtain ⟨w2, hw2, hwm2⟩ := applyWrites_ok (writesOf dir) w (applyObj o (writesOf dir)) hwm1
    rcases hp2 : processDir w dir with ⟨os2, evs2⟩
    have hst2 := processDir_store dir w
    rw [hp2] at hst2
    have hos2 : os2 = some w2 := by
      simp only [] at hst2
      rw [hst2]
      exact hw2
    have hj2 : jlen (getAgents w2) =
        some (applyObj (applyObj o (writesOf dir)) (writesOf dir)).length :=
      jlen_getAgents w2 _ hwm2
    refine ⟨w2, evs2 ++ [Event.writeFile w2,
      Event.summary (applyObj (applyObj o (writesOf dir)) (writesOf dir)).length], ?_, ?_⟩
    · exact script_ok_intro w dir w2 evs2
        (applyObj (applyObj o (writesOf dir)) (writesOf dir)).length
        (by rw [hp2, hos2]) hj2
    · intro k
      have ha2 : agentsAlist w2 = applyObj (applyObj o (writesOf dir)) (writesOf dir) := by
        simp [agentsAlist, hwm2]
      have ha1 : agentsAlist w = applyObj o (writesOf dir) := by
        simp [agentsAlist, hwm1]
      rw [ha2, ha1]
      rw [lookupKey_applyObj (writesOf dir) (applyObj o (writesOf dir)) k,
        lookupKey_applyObj (writesOf dir) o k]
      rcases hrev : lookupKey k (writesOf dir).reverse with _ | v
      · simp only [hrev]
      · simp only [hrev]

/-- Witness for C6: the concrete sample run, run again on its own output. -/
theorem idempotent_second_run_witness :
    ∃ w2 evs2, script (some w1c) docDir = (.ok w2, evs2) ∧
      ∀ k, lookupKey k (agentsAlist w2) = lookupKey k (agentsAlist w1c) :=
  idempotent_second_run s0w docDir w1c evs1c (by rfl)

/-! ### The closing delimiter requires a trailing newline (C10) -/

/-- A final `---` line with no trailing newline: the last four characters of
such a document. -/
def closeBare : List Char := "\n---".toList

theorem findSub_none_iff (pat : List Char) :
    ∀ s : List Char, findSub pat s = none ↔ ∀ n, pat.isPrefixOf (s.drop n) = false := by
  intro s
  induction s with
  | nil =>
    constructor
    · intro h n
      rw [List.drop_nil]
      rcases hpc : pat with _ | ⟨a, pa⟩
      · rw [hpc] at h
        simp [findSub] at h
      · simp [List.isPrefixOf]
    · intro h
      have h0 := h 0
      rw [List.drop_nil] at h0
      rcases hpc : pat with _ | ⟨a, pa⟩
      · rw [hpc] at h0
        simp [List.isPrefixOf] at h0
      · simp [findSub]
  | cons c rest ih =>
    constructor
    · intro h n
      by_cases hp : pat.isPrefixOf (c :: rest) = true
      · simp [findSub, hp] at h
      · rw [Bool.not_eq_true] at hp
        simp only [findSub, hp, Bool.false_eq_true, if_false,
          Option.map_eq_none'] at h
        rcases n with _ | n
        · simpa using hp
        · rw [List.drop_succ_cons]
          exact (ih.mp h) n
    · intro h
      by_cases hp : pat.isPrefixOf (c :: rest) = true
      · have h0 := h 0
        rw [List.drop_zero] at h0
        rw [h0] at hp
        cases hp
      · rw [Bool.not_eq_true] at hp
        simp only [findSub, hp, Bool.false_eq_true, if_false, Option.map_eq_none']
        exact ih.mpr fun n => by
          have hn := h (n + 1)
          rwa [List.drop_succ_cons] at hn

/-- Whether `\n---\n` begins at a position inside `d ++ tail` does not depend
on the final newline of the tail, as long as the position is strictly inside
`d`: the first five characters seen are the same. -/
theorem prefix_transfer (d : List Char) (hd : d ≠ []) :
    closeDelim.isPrefixOf (d ++ closeDelim) = closeDelim.isPrefixOf (d ++ closeBare) := by
  have hlen : 1 ≤ d.length := by
    rcases d with _ | ⟨x, d⟩
    · exact absurd rfl hd
    · simp
  have hk : closeDelim.length - d.length ≤ closeBare.length := by
    have h5 : closeDelim.length = 5 := rfl
    have h4 : closeBare.length = 4 := rfl
    omega
  have htail : ∀ k, k ≤ closeBare.length → closeDelim.take k = closeBare.take k := by
    intro k hk2
    have hsplit : closeDelim = closeBare ++ ['\n'] := rfl
    calc closeDelim.take k = (closeBare ++ ['\n']).take k := by rw [← hsplit]
      _ = closeBare.take k := List.take_append_of_le_length hk2
  have htake : (d ++ closeDelim).take closeDelim.length =
      (d ++ closeBare).take closeDelim.length := by
    rw [List.take_append_eq_append_take, List.take_append_eq_append_take]
    congr 1
    exact htail _ hk
  rw [Bool.eq_iff_iff, List.isPrefixOf_iff_prefix, List.isPrefixOf_iff_prefix,
    List.prefix_iff_eq_take, List.prefix_iff_eq_take, htake]

/-- Appending the missing newline turns the failed search into a match at the
end of the header. -/
theorem findSub_closeDelim_append (hm : List Char)
    (h1 : findSub closeDelim (hm ++ closeBare) = none) :
    findSub closeDelim (hm ++ closeDelim) = some hm.length := by
  induction hm with
  | nil => decide
  | cons c hm ih =>
    have hpre1 : closeDelim.isPrefixOf (c :: (hm ++ closeBare)) = false := by
      by_cases hp : closeDelim.isPrefixOf (c :: (hm ++ closeBare)) = true
      · rw [show (c :: hm) ++ closeBare = c :: (hm ++ closeBare) from rfl] at h1
        simp [findSub, hp] at h1
      · exact Bool.not_eq_true _ |>.mp hp
    have hrest : findSub closeDelim (hm ++ closeBare) = none := by
      rw [show (c :: hm) ++ closeBare = c :: (hm ++ closeBare) from rfl] at h1
      simp only [findSub, hpre1, Bool.false_eq_true, if_false,
        Option.map_eq_none'] at h1
      exact h1
    have hpre2 : closeDelim.isPrefixOf (c :: (hm ++ closeDelim)) = false := by
      have := prefix_transfer (c :: hm) (by simp)
      rw [show (c :: hm) ++ closeDelim = c :: (hm ++ closeDelim) from rfl,
        show (c :: hm) ++ closeBare = c :: (hm ++ closeBare) from rfl] at this
      rw [this]
      exact hpre1
    rw [show (c :: hm) ++ closeDelim = c :: (hm ++ closeDelim) from rfl]
    simp only [findSub, hpre2, Bool.false_eq_true, if_false]
    rw [ih hrest]
    rfl

/-- C10: a document whose closing `---` is the very last line, not followed by
a newline, does not parse — the regex's closing delimiter is `\n---\n` — while
the same document with the newline restored parses, with header `hm` and empty
body. -/
theorem unterminated_close_skipped (hm : List Char)
    (h1 : findSub closeDelim (hm ++ closeBare) = none) :
    parseDocument (openDelim ++ (hm ++ closeBare)) = none ∧
    parseDocument (openDelim ++ (hm ++ closeDelim)) = some (hm, []) := by
  have hlen4 : openDelim.length = 4 := rfl
  constructor
  · have hpre : openDelim.isPrefixOf (openDelim ++ (hm ++ closeBare)) = true := by
      rw [ List.isPrefixOf_iff_prefix]
      exact List.prefix_append _ _
    have hdrop : (openDelim ++ (hm ++ closeBare)).drop 4 = hm ++ closeBare := by
      rw [← hlen4, List.drop_left]
    simp only [parseDocument, hpre, if_true, hdrop, h1]
  · have hpre : openDelim.isPrefixOf (openDelim ++ (hm ++ closeDelim)) = true := by
      rw [ List.isPrefixOf_iff_prefix]
      exact List.prefix_append _ _
    have hdrop : (openDelim ++ (hm ++ closeDelim)).drop 4 = hm ++ closeDelim := by
      rw [← hlen4, List.drop_left]
    have hfind := findSub_closeDelim_append hm h1
    simp only [parseDocument, hpre, if_true, hdrop, hfind]
    rw [List.take_left]
    have hdrop2 : (hm ++ closeDelim).drop (hm.length + 5) = [] := by
      rw [List.drop_append 5]
      rfl
    rw [hdrop2]

/-- Witness for C10 at a concrete one-line header. -/
theorem unterminated_close_skipped_witness :
    findSub closeDelim ((("name: x").toList) ++ closeBare) = none ∧
    (parseDocument (openDelim ++ ((("name: x").toList) ++ closeBare)) = none ∧
     parseDocument (openDelim ++ ((("name: x").toList) ++ closeDelim)) =
       some ((("name: x").toList), [])) :=
  ⟨by decide, unterminated_close_skipped (("name: x").toList) (by decide)⟩

end UpdateAgents
